import Mathlib

/-!
Verification of the minigun property-based testing core against its source
(src/minigun/testing.py).  The collaborator modules referenced by testing.py
(stream, domain, maybe, quantify, arbitrary) are not part of the given source
tree; their small interfaces are modelled from the specification (sections 2,
3, 4.1 and 6) and are marked as such below.  Everything else is a direct
shallow embedding of testing.py: Python dicts become association lists in
insertion order, lazy streams become lists in evaluation order, Maybe becomes
Option (Something = some, Nothing = none), and the opaque PRNG State becomes a
type parameter.
-/

namespace Minigun

/-- Modelled from the spec: a Stream (section 2) is a lazy, possibly infinite
sequence with combinators filter, peek and is_empty (section 4.1).  The shrink
streams the core builds from finite Domains are finite, so Streams are
embedded as lists in evaluation order. -/
abbrev MStream (α : Type) : Type := List α

/-- Modelled from the spec (section 4.1): filter lazily keeps the matching
elements of a stream. -/
def sfilter {α : Type} (p : α → Bool) (st : MStream α) : MStream α :=
  List.filter p st

/-- Modelled from the spec (section 4.1): peek forces only the first element
of a stream and returns Absent on an empty stream.  testing.py destructures
the peeked result as a Domain, i.e. a (head, tail) pair, and returns its first
component as the counterexample dict, so peek yields the first stream element
itself. -/
def speek {α : Type} (st : MStream α) : Option α :=
  st.head?

/-- Modelled from the spec (section 4.1): is_empty checks whether a stream has
a first element. -/
def s_is_empty {α : Type} (st : MStream α) : Bool :=
  st.isEmpty

/-- Modelled from the spec (section 3): a Domain is a current value together
with a lazy stream of smaller Domains, and in the Python source it is exactly
the pair of a head value and a tail stream.  Finite shrink trees are embedded
as a nested inductive. -/
inductive Domain (α : Type) : Type where
  | mk (head : α) (tail : List (Domain α)) : Domain α

/-- Modelled from the spec (section 4.1): head projects the current value of a
Domain. -/
def Domain.head {α : Type} : Domain α → α
  | .mk h _ => h

/-- Modelled from the spec (section 4.1): tail projects the shrink stream of a
Domain. -/
def Domain.tail {α : Type} : Domain α → MStream (Domain α)
  | .mk _ t => t

mutual

/-- Size of a Domain tree, used as a termination measure for the shrink search
of testing.py. -/
def Domain.size {α : Type} : Domain α → Nat
  | .mk _ t => 1 + sizeListD t

/-- Combined size of a list of Domain trees. -/
def sizeListD {α : Type} : List (Domain α) → Nat
  | [] => 0
  | d :: ds => Domain.size d + sizeListD ds

end

/-- Keyword-argument maps (Python dicts keyed by parameter name) are embedded
as association lists in insertion order. -/
abbrev Assign (α : Type) : Type := List (String × α)

/-- Lookup in an association list: the binding of the first matching key, as a
Python dict subscript on a dict with unique keys. -/
def alookup {β : Type} (args : List (String × β)) (k : String) : Option β :=
  match args with
  | [] => none
  | (k2, v) :: rest => if k2 = k then some v else alookup rest k

/-- In-place update of an association list at an existing key, preserving the
insertion order, as a Python dict item assignment for a present key. -/
def aupdate {β : Type} (args : List (String × β)) (k : String) (v : β) :
    List (String × β) :=
  match args with
  | [] => []
  | (k2, v2) :: rest =>
    if k2 = k then (k2, v) :: rest else (k2, v2) :: aupdate rest k v

/-- Combined size of the Domains bound in an argument map, used as the
termination measure of the distributed shrink stream. -/
def argsSize {α : Type} (args : List (String × Domain α)) : Nat :=
  match args with
  | [] => 0
  | (_, dom) :: rest => Domain.size dom + argsSize rest

theorem size_lt_of_mem_tail {α : Type} {d2 dom : Domain α}
    (h : d2 ∈ Domain.tail dom) : Domain.size d2 < Domain.size dom := by
  cases dom with
  | mk hd tl =>
    simp only [Domain.tail] at h
    rw [Domain.size]
    induction tl with
    | nil => simp at h
    | cons d ds ih =>
      rcases List.mem_cons.mp h with h2 | h2
      · subst h2
        rw [sizeListD]
        omega
      · have := ih h2
        rw [sizeListD]
        omega

theorem size_le_sizeListD_of_mem {α : Type} {d : Domain α} {l : List (Domain α)}
    (h : d ∈ l) : Domain.size d ≤ sizeListD l := by
  induction l with
  | nil => simp at h
  | cons d2 ds ih =>
    rcases List.mem_cons.mp h with h2 | h2
    · subst h2
      rw [sizeListD]
      omega
    · have := ih h2
      rw [sizeListD]
      omega

theorem argsSize_update_lt {α : Type} {args : List (String × Domain α)}
    {p : String} {dom next : Domain α}
    (h1 : alookup args p = some dom) (h2 : next ∈ Domain.tail dom) :
    argsSize (aupdate args p next) < argsSize args := by
  induction args with
  | nil => simp [alookup] at h1
  | cons kv rest ih =>
    obtain ⟨k2, v2⟩ := kv
    rw [alookup] at h1
    rw [aupdate]
    by_cases hk : k2 = p
    · rw [if_pos hk] at h1
      rw [if_pos hk]
      obtain rfl : v2 = dom := Option.some.inj h1
      have := size_lt_of_mem_tail h2
      rw [argsSize, argsSize]
      omega
    · rw [if_neg hk] at h1
      rw [if_neg hk]
      have := ih h1
      rw [argsSize, argsSize]
      omega

mutual

/-- Embedding of _distribute_dict_domain (testing.py lines 72 to 86): the
combined Domain of an argument map has as head the map of the heads and as
tail the stream produced by the inner thunk started on the full key list. -/
def _distribute_dict_domain {α : Type} (args : List (String × Domain α)) :
    Domain (Assign α) :=
  Domain.mk (args.map fun kv => (kv.1, Domain.head kv.2))
    (distThunk args (args.map Prod.fst))
termination_by (argsSize args, args.length + 1)
decreasing_by
  apply Prod.Lex.right
  simp

/-- Embedding of the inner _thunk of _distribute_dict_domain: walk the
remaining parameter names in order; raise StopIteration (empty stream) when
none remain; skip a parameter whose Domain has an empty tail stream; otherwise
yield the combined Domain obtained by substituting the first Domain of that
parameter's tail, and continue with the remaining parameters.  The lookup
cannot fail because the name list is always drawn from the keys of the map, so
the impossible branch also skips. -/
def distThunk {α : Type} (args : List (String × Domain α))
    (params : List String) : MStream (Domain (Assign α)) :=
  match params with
  | [] => []
  | param :: ps =>
    match h1 : alookup args param with
    | none => distThunk args ps
    | some dom =>
      match h2 : Domain.tail dom with
      | [] => distThunk args ps
      | next :: _ =>
        _distribute_dict_domain (aupdate args param next) :: distThunk args ps
termination_by (argsSize args, params.length)
decreasing_by
  all_goals
    first
      | (apply Prod.Lex.left
         exact argsSize_update_lt h1 (by rw [h2]; exact List.mem_cons_self _ _))
      | (apply Prod.Lex.right
         simp)

end

/-- Embedding of _is_counter_example inside _trim_counter_example (testing.py
lines 93 to 94): a combined Domain is a counterexample when the law applied to
its head map is false. -/
def _is_counter_example {α : Type} (law : Assign α → Bool)
    (args : Domain (Assign α)) : Bool :=
  !(law (Domain.head args))

/-- Embedding of the _search loop of _trim_counter_example (testing.py lines
96 to 103): destructure the current combined Domain, peek the first element of
its tail stream filtered to counterexamples; on Something continue from that
element, on Nothing return the current head map. -/
def _search {α : Type} (law : Assign α → Bool) (args : Domain (Assign α)) :
    Assign α :=
  match args with
  | Domain.mk init_args trimmed_args =>
    match hp : speek (sfilter (_is_counter_example law) trimmed_args) with
    | some next_domain => _search law next_domain
    | none => init_args
termination_by Domain.size args
decreasing_by
  have hmem : next_domain ∈ sfilter (_is_counter_example law) trimmed_args :=
    List.mem_of_mem_head? (by simp [speek] at hp; simp [hp])
  have hmem2 : next_domain ∈ trimmed_args := List.mem_of_mem_filter hmem
  have h3 : Domain.size next_domain ≤ sizeListD trimmed_args :=
    size_le_sizeListD_of_mem hmem2
  rw [Domain.size]
  have h4 : 1 ≤ Domain.size next_domain := by
    cases next_domain
    rw [Domain.size]
    omega
  omega

/-- Embedding of _trim_counter_example (testing.py lines 88 to 105): run the
search loop on the combined Domain of the failing argument map. -/
def _trim_counter_example {α : Type} (law : Assign α → Bool)
    (counter_example : List (String × Domain α)) : Assign α :=
  _search law (_distribute_dict_domain counter_example)

/-- Modelled from the spec (section 3): a Sampler is a pure function from a
PRNG State to the next State and a freshly generated Domain.  The State type
is opaque (the arbitrary module is an external collaborator, section 6) and is
embedded as a type parameter. -/
abbrev Sampler (σ α : Type) : Type := σ → σ × Domain α

/-- Embedding of the Unit dataclass (testing.py lines 33 to 37): a law bound
to its resolved parameter Samplers; the law is kept as the callable on keyword
argument maps.  The refines field is carried but never consulted. -/
structure Unit (σ α : Type) where
  law : Assign α → Bool
  args : List (String × Sampler σ α)
  refines : List (String × (α → Bool))

/-- Embedding of the inner sampling loop of _find_counter_example (testing.py
lines 114 to 117): thread the PRNG State through every parameter's Sampler in
declared order, collecting the freshly sampled Domains. -/
def sampleArgs {σ α : Type} (samplers : List (String × Sampler σ α))
    (state : σ) : σ × List (String × Domain α) :=
  match samplers with
  | [] => (state, [])
  | (param, arg_sampler) :: rest =>
    let sr := arg_sampler state
    let rec2 := sampleArgs rest sr.1
    (rec2.1, (param, sr.2) :: rec2.2)

/-- Embedding of _find_counter_example (testing.py lines 107 to 121): run up
to count trials; each trial samples every parameter, evaluates the law on the
head values, continues on success and otherwise returns the trimmed
counterexample with the State threaded up to and including the failing trial.
The name argument only labels the progress bar. -/
def _find_counter_example {σ α : Type} (name : String) (count : Nat)
    (unit : Unit σ α) (state : σ) : σ × Option (Assign α) :=
  match count with
  | 0 => (state, none)
  | Nat.succ n =>
    let sr := sampleArgs unit.args state
    let ex := sr.2
    let exHeads := ex.map fun kv => (kv.1, Domain.head kv.2)
    if unit.law exHeads then _find_counter_example name n unit sr.1
    else (sr.1, some (_trim_counter_example unit.law ex))

/-- Embedding of the Test dataclass (testing.py lines 123 to 127). -/
structure Test (σ α : Type) where
  name : String
  count : Nat
  unit : σ → σ × Option (Assign α)

/-- Embedding of the test decorator (testing.py lines 129 to 133): compile a
Unit into a named, trial-count-bounded search procedure. -/
def test {σ α : Type} (name : String) (count : Nat) (unit : Unit σ α) :
    Test σ α :=
  Test.mk name count (_find_counter_example name count unit)

/-- Embedding of the Suite class (testing.py lines 138 to 140). -/
structure Suite (σ α : Type) where
  tests : List (Test σ α)

/-- Embedding of the loop of Suite.evaluate (testing.py lines 144 to 154):
run the Tests in declaration order threading the PRNG State; return False on
the first Test whose search yields Something, True when all yield Nothing. -/
def evalTests {σ α : Type} (state : σ) (tests : List (Test σ α)) : Bool :=
  match tests with
  | [] => true
  | t :: rest =>
    let sr := t.unit state
    match sr.2 with
    | none => evalTests sr.1 rest
    | some _ => false

/-- Embedding of Suite.evaluate (testing.py lines 142 to 154).  Modelled from
the spec (section 6): the initial State comes from the external seed
primitive of the arbitrary module and is passed explicitly; the args parameter
is carried but unused, as in the source. -/
def Suite.evaluate {σ α : Type} (suite : Suite σ α) (seed0 : σ)
    (args : List String) : Bool :=
  evalTests seed0 suite.tests

/-- Companion of Suite.evaluate exposing what the source prints on failure:
the first failing Test's name together with its reported counterexample map,
or none when every Test passes. -/
def evalReport {σ α : Type} (state : σ) (tests : List (Test σ α)) :
    Option (String × Assign α) :=
  match tests with
  | [] => none
  | t :: rest =>
    let sr := t.unit state
    match sr.2 with
    | none => evalReport sr.1 rest
    | some ce => some (t.name, ce)

/-- Modelled from the spec (section 9): a law as the domain decorator sees it
through reflection, carrying its name, its declared parameters with their type
annotations in declared order, and the callable on keyword argument maps.
Type annotations are opaque descriptors of a parameter type tau, resolved by
the external inference registry. -/
structure PyLaw (τ α : Type) where
  name : String
  params : List (String × τ)
  fn : Assign α → Bool

/-- Python dict item assignment for a possibly absent key: replace the binding
in place when the key is present, otherwise append it. -/
def dinsert {β : Type} (args : List (String × β)) (k : String) (v : β) :
    List (String × β) :=
  if (args.map Prod.fst).contains k then aupdate args k v else args ++ [(k, v)]

/-- Embedding of the argument gathering of the domain decorator (testing.py
lines 48 to 53): positional samplers are zipped against the declared
parameter names, then keyword samplers are inserted by name. -/
def _gather_args {σ α : Type} (lparams : List (Sampler σ α))
    (kparams : List (String × Sampler σ α)) (params : List String) :
    List (String × Sampler σ α) :=
  List.foldl (fun acc kv => dinsert acc kv.1 kv.2)
    (List.zip (params.take lparams.length) lparams) kparams

/-- Embedding of the inference loop of the domain decorator (testing.py lines
55 to 66): for every parameter still missing a sampler, look up its type
annotation and ask the external registry; a failed inference raises the
construction error naming the parameter and the law.  The set difference of
Python is iterated in declared parameter order. -/
def _infer_missing {σ α τ : Type} (infer : τ → Option (Sampler σ α))
    (law_name : String) (arg_types : List (String × τ))
    (missing : List String) (args : List (String × Sampler σ α)) :
    Except String (List (String × Sampler σ α)) :=
  match missing with
  | [] => Except.ok args
  | param :: rest =>
    match alookup arg_types param with
    | none => Except.error ("No annotation for parameter " ++ param)
    | some ty =>
      match infer ty with
      | none =>
        Except.error ("Failed to infer domain for parameter " ++ param ++
          " of functions " ++ law_name)
      | some arg_sampler =>
        _infer_missing infer law_name arg_types rest
          (dinsert args param arg_sampler)

/-- The set difference of the declared parameters against the explicitly
gathered ones (testing.py line 56), iterated in declared parameter order. -/
def _missing_params {σ α : Type} (lparams : List (Sampler σ α))
    (kparams : List (String × Sampler σ α)) (params : List String) :
    List String :=
  params.filter fun p =>
    !(((_gather_args lparams kparams params).map Prod.fst).contains p)

/-- Embedding of the domain decorator (testing.py lines 39 to 70): gather the
explicitly supplied samplers, infer the missing ones from the declared types
through the external registry, and wrap up the Unit; a parameter that can
neither be matched nor inferred is a construction-time error. -/
def domain {σ α τ : Type} (infer : τ → Option (Sampler σ α))
    (lparams : List (Sampler σ α)) (kparams : List (String × Sampler σ α))
    (law : PyLaw τ α) : Except String (Unit σ α) :=
  let params := law.params.map Prod.fst
  let args1 := _gather_args lparams kparams params
  let missing := _missing_params lparams kparams params
  match _infer_missing infer law.name law.params missing args1 with
  | Except.error e => Except.error e
  | Except.ok args2 => Except.ok (Unit.mk law.fn args2 [])

/-!  Unfolding equations for the well-founded recursive definitions. -/

theorem distThunk_nil {α : Type} (args : List (String × Domain α)) :
    distThunk args [] = [] := by
  rw [distThunk]

theorem distThunk_cons_none {α : Type} {args : List (String × Domain α)}
    {p : String} {ps : List String} (h : alookup args p = none) :
    distThunk args (p :: ps) = distThunk args ps := by
  rw [distThunk]
  split
  · rfl
  · rename_i dom h1
    rw [h] at h1
    cases h1

theorem distThunk_cons_skip {α : Type} {args : List (String × Domain α)}
    {p : String} {ps : List String} {dom : Domain α}
    (h : alookup args p = some dom) (h2 : Domain.tail dom = []) :
    distThunk args (p :: ps) = distThunk args ps := by
  rw [distThunk]
  split
  · rfl
  · rename_i dom2 h1
    rw [h] at h1
    cases h1
    split
    · rfl
    · rename_i next rest h3
      rw [h2] at h3
      cases h3

theorem distThunk_cons_yield {α : Type} {args : List (String × Domain α)}
    {p : String} {ps : List String} {dom next : Domain α}
    {rest : List (Domain α)}
    (h : alookup args p = some dom) (h2 : Domain.tail dom = next :: rest) :
    distThunk args (p :: ps) =
      _distribute_dict_domain (aupdate args p next) :: distThunk args ps := by
  rw [distThunk]
  split
  · rename_i h1
    rw [h] at h1
    cases h1
  · rename_i dom2 h1
    rw [h] at h1
    cases h1
    split
    · rename_i h3
      rw [h2] at h3
      cases h3
    · rename_i next2 rest2 h3
      rw [h2] at h3
      cases h3
      rfl

theorem dist_def {α : Type} (args : List (String × Domain α)) :
    _distribute_dict_domain args =
      Domain.mk (args.map fun kv => (kv.1, Domain.head kv.2))
        (distThunk args (args.map Prod.fst)) := by
  rw [_distribute_dict_domain]

theorem search_of_peek_some {α : Type} {law : Assign α → Bool}
    {init_args : Assign α} {trimmed_args : List (Domain (Assign α))}
    {nd : Domain (Assign α)}
    (h : speek (sfilter (_is_counter_example law) trimmed_args) = some nd) :
    _search law (Domain.mk init_args trimmed_args) = _search law nd := by
  rw [_search]
  split
  · rename_i nd2 h2
    rw [h] at h2
    cases h2
    rfl
  · rename_i h2
    rw [h] at h2
    cases h2

theorem search_of_peek_none {α : Type} {law : Assign α → Bool}
    {init_args : Assign α} {trimmed_args : List (Domain (Assign α))}
    (h : speek (sfilter (_is_counter_example law) trimmed_args) = none) :
    _search law (Domain.mk init_args trimmed_args) = init_args := by
  rw [_search]
  split
  · rename_i nd2 h2
    rw [h] at h2
    cases h2
  · rfl

/-!  Association-list lemmas. -/

theorem alookup_cons_self {β : Type} (p : String) (v : β)
    (rest : List (String × β)) : alookup ((p, v) :: rest) p = some v := by
  simp [alookup]

theorem alookup_map_value {β γ : Type} (f : β → γ)
    (args : List (String × β)) (p : String) :
    alookup (args.map fun kv => (kv.1, f kv.2)) p = (alookup args p).map f := by
  induction args with
  | nil => simp [alookup]
  | cons kv rest ih =>
    obtain ⟨k2, v2⟩ := kv
    by_cases hk : k2 = p
    · subst hk
      simp [alookup]
    · simp [alookup, hk, ih]

theorem alookup_append_left_notin {β : Type} {pre : List (String × β)}
    {p : String} (suf : List (String × β)) (h : p ∉ pre.map Prod.fst) :
    alookup (pre ++ suf) p = alookup suf p := by
  induction pre with
  | nil => simp
  | cons kv rest ih =>
    obtain ⟨k2, v2⟩ := kv
    simp only [List.map_cons, List.mem_cons] at h
    push_neg at h
    rw [List.cons_append, alookup, if_neg (fun he => h.1 he.symm)]
    exact ih h.2

theorem keys_aupdate {β : Type} (args : List (String × β)) (p : String)
    (v : β) : (aupdate args p v).map Prod.fst = args.map Prod.fst := by
  induction args with
  | nil => simp [aupdate]
  | cons kv rest ih =>
    obtain ⟨k2, v2⟩ := kv
    by_cases hk : k2 = p
    · simp [aupdate, hk]
    · simp [aupdate, hk, ih]

theorem alookup_aupdate_ne {β : Type} (args : List (String × β))
    {p q : String} (v : β) (h : q ≠ p) :
    alookup (aupdate args p v) q = alookup args q := by
  induction args with
  | nil => simp [aupdate]
  | cons kv rest ih =>
    obtain ⟨k2, v2⟩ := kv
    by_cases hk : k2 = p
    · subst hk
      rw [aupdate, if_pos rfl, alookup, alookup, if_neg, if_neg]
      · exact fun he => h he.symm
      · exact fun he => h he.symm
    · rw [aupdate, if_neg hk, alookup, alookup]
      by_cases hq : k2 = q
      · simp [hq]
      · simp [hq, ih]

theorem contains_keys_iff {β : Type} (args : List (String × β)) (p : String) :
    (args.map Prod.fst).contains p = true ↔ (alookup args p).isSome = true := by
  induction args with
  | nil => simp [alookup]
  | cons kv rest ih =>
    obtain ⟨k2, v2⟩ := kv
    by_cases hk : k2 = p
    · subst hk
      simp [alookup]
    · simp only [List.map_cons, List.contains_cons, alookup, if_neg hk]
      constructor
      · intro h
        rcases Bool.or_eq_true_iff.mp h with h | h
        · have hpe : p = k2 := by simpa using h
          exact absurd hpe.symm hk
        · exact ih.mp h
      · intro h
        exact Bool.or_eq_true_iff.mpr (Or.inr (ih.mpr h))

/-!  Characterization of the distributed shrink stream. -/

theorem distThunk_append {α : Type} :
    ∀ (suf pre : List (String × Domain α)),
    (((pre ++ suf).map Prod.fst).Nodup) →
    distThunk (pre ++ suf) (suf.map Prod.fst) =
      suf.filterMap fun kv => ((Domain.tail kv.2).head?).map fun next =>
        _distribute_dict_domain (aupdate (pre ++ suf) kv.1 next) := by
  intro suf
  induction suf with
  | nil =>
    intro pre hnd
    simp [distThunk_nil]
  | cons kv suf2 ih =>
    intro pre hnd
    obtain ⟨p, dom⟩ := kv
    have hkeys : ((pre ++ (p, dom) :: suf2).map Prod.fst) =
        pre.map Prod.fst ++ p :: suf2.map Prod.fst := by simp
    have hp_not : p ∉ pre.map Prod.fst := by
      rw [hkeys] at hnd
      rcases List.nodup_append.mp hnd with ⟨h1, h2, h3⟩
      intro hmem
      exact h3 hmem (List.mem_cons_self _ _)
    have hl : alookup (pre ++ (p, dom) :: suf2) p = some dom := by
      rw [alookup_append_left_notin _ hp_not]
      exact alookup_cons_self p dom suf2
    have hassoc : pre ++ (p, dom) :: suf2 = (pre ++ [(p, dom)]) ++ suf2 := by
      simp
    cases h2 : Domain.tail dom with
    | nil =>
      rw [List.map_cons, distThunk_cons_skip hl h2, List.filterMap_cons]
      simp only [h2, List.head?_nil, Option.map_none']
      have := ih (pre ++ [(p, dom)]) (by rw [← hassoc]; exact hnd)
      rw [← hassoc] at this
      exact this
    | cons next rest =>
      rw [List.map_cons, distThunk_cons_yield hl h2, List.filterMap_cons]
      simp only [h2, List.head?_cons, Option.map_some']
      have := ih (pre ++ [(p, dom)]) (by rw [← hassoc]; exact hnd)
      rw [← hassoc] at this
      rw [this]

theorem dist_head {α : Type} (args : List (String × Domain α)) :
    Domain.head (_distribute_dict_domain args) =
      args.map fun kv => (kv.1, Domain.head kv.2) := by
  rw [dist_def, Domain.head]

theorem dist_tail_char {α : Type} (args : List (String × Domain α))
    (hnd : (args.map Prod.fst).Nodup) :
    Domain.tail (_distribute_dict_domain args) =
      args.filterMap fun kv => ((Domain.tail kv.2).head?).map fun next =>
        _distribute_dict_domain (aupdate args kv.1 next) := by
  rw [dist_def]
  have := distThunk_append args [] (by simpa using hnd)
  simpa using this

/-- Written from the words of the spec (section 4.4): the first parameter in
declared order whose own tail stream is non-empty, together with the first
Domain taken from that tail. -/
def firstShrinkable {α : Type} : List (String × Domain α) →
    Option (String × Domain α)
  | [] => none
  | (p, dom) :: rest =>
    match Domain.tail dom with
    | [] => firstShrinkable rest
    | next :: _ => some (p, next)

theorem head_filterMap_shrink {α : Type} (whole : List (String × Domain α)) :
    ∀ args : List (String × Domain α),
    (args.filterMap fun kv => ((Domain.tail kv.2).head?).map fun next =>
        _distribute_dict_domain (aupdate whole kv.1 next)).head? =
      (firstShrinkable args).map fun pr =>
        _distribute_dict_domain (aupdate whole pr.1 pr.2) := by
  intro args
  induction args with
  | nil => simp [firstShrinkable]
  | cons kv rest ih =>
    obtain ⟨p, dom⟩ := kv
    cases h2 : Domain.tail dom with
    | nil => simp [firstShrinkable, List.filterMap_cons, h2, ih]
    | cons next r2 => simp [firstShrinkable, List.filterMap_cons, h2]

mutual

/-- Written from the words of the spec (section 4.4): depth-first
left-to-right enumeration of the values of a shrink tree, the node first and
then the full subtree of each child in stream order. -/
def dfsD {α : Type} : Domain α → List α
  | .mk h t => h :: dfsList t

/-- Depth-first enumeration of a list of shrink trees in order. -/
def dfsList {α : Type} : List (Domain α) → List α
  | [] => []
  | d :: ds => dfsD d ++ dfsList ds

end

theorem dfsList_eq_flatten {α : Type} (l : List (Domain α)) :
    dfsList l = (l.map dfsD).flatten := by
  induction l with
  | nil => rfl
  | cons d ds ih => simp [dfsList, ih]

/-!  The greedy minimization loop, written from the words of the spec. -/

/-- Written from the words of the spec (section 4.5): keep a current best
head-values map; filter the current shrink stream to the candidates whose head
values falsify the law and take the first match; on a match that candidate's
head becomes the new best and the search continues on the candidate's own
shrink stream; otherwise return the current best. -/
def trimSpec {α : Type} (law : Assign α → Bool) (best : Assign α)
    (stream : List (Domain (Assign α))) : Assign α :=
  match hc : (stream.filter fun d => law (Domain.head d) == false).head? with
  | some c => trimSpec law (Domain.head c) (Domain.tail c)
  | none => best
termination_by sizeListD stream
decreasing_by
  have hmem : c ∈ stream.filter fun d => law (Domain.head d) == false :=
    List.mem_of_mem_head? hc
  have hmem2 : c ∈ stream := List.mem_of_mem_filter hmem
  have h3 : Domain.size c ≤ sizeListD stream := size_le_sizeListD_of_mem hmem2
  cases c with
  | mk h t =>
    rw [Domain.size] at h3
    simp only [Domain.tail]
    omega

theorem trimSpec_of_some {α : Type} {law : Assign α → Bool} {best : Assign α}
    {stream : List (Domain (Assign α))} {c : Domain (Assign α)}
    (h : (stream.filter fun d => law (Domain.head d) == false).head? = some c) :
    trimSpec law best stream = trimSpec law (Domain.head c) (Domain.tail c) := by
  rw [trimSpec]
  split
  · rename_i c2 h2
    rw [h] at h2
    cases h2
    rfl
  · rename_i h2
    rw [h] at h2
    cases h2

theorem trimSpec_of_none {α : Type} {law : Assign α → Bool} {best : Assign α}
    {stream : List (Domain (Assign α))}
    (h : (stream.filter fun d => law (Domain.head d) == false).head? = none) :
    trimSpec law best stream = best := by
  rw [trimSpec]
  split
  · rename_i c2 h2
    rw [h] at h2
    cases h2
  · rfl

theorem spec_filter_eq {α : Type} (law : Assign α → Bool) :
    (fun d : Domain (Assign α) => law (Domain.head d) == false) =
      _is_counter_example law := by
  funext d
  rw [_is_counter_example]
  cases law (Domain.head d) <;> rfl

theorem search_eq_trimSpec_aux {α : Type} (law : Assign α → Bool) :
    ∀ (n : Nat) (d : Domain (Assign α)), Domain.size d ≤ n →
    _search law d = trimSpec law (Domain.head d) (Domain.tail d) := by
  intro n
  induction n with
  | zero =>
    intro d hle
    cases d with
    | mk i t =>
      rw [Domain.size] at hle
      omega
  | succ n ih =>
    intro d hle
    cases d with
    | mk i t =>
      cases hp : speek (sfilter (_is_counter_example law) t) with
      | some nd =>
        rw [search_of_peek_some hp]
        simp only [Domain.head, Domain.tail]
        rw [trimSpec_of_some (by rw [spec_filter_eq law]; exact hp)]
        have hmem : nd ∈ sfilter (_is_counter_example law) t :=
          List.mem_of_mem_head? (by simp [speek] at hp; simp [hp])
        have hmem2 : nd ∈ t := List.mem_of_mem_filter hmem
        have h3 : Domain.size nd ≤ sizeListD t := size_le_sizeListD_of_mem hmem2
        rw [Domain.size] at hle
        exact ih nd (by omega)
      | none =>
        rw [search_of_peek_none hp]
        simp only [Domain.head, Domain.tail]
        rw [trimSpec_of_none (by rw [spec_filter_eq law]; exact hp)]

theorem search_falsifies {α : Type} (law : Assign α → Bool) :
    ∀ (n : Nat) (d : Domain (Assign α)), Domain.size d ≤ n →
    law (Domain.head d) = false → law (_search law d) = false := by
  intro n
  induction n with
  | zero =>
    intro d hle
    cases d with
    | mk i t =>
      rw [Domain.size] at hle
      omega
  | succ n ih =>
    intro d hle hfal
    cases d with
    | mk i t =>
      cases hp : speek (sfilter (_is_counter_example law) t) with
      | some nd =>
        rw [search_of_peek_some hp]
        have hmem : nd ∈ sfilter (_is_counter_example law) t :=
          List.mem_of_mem_head? (by simp [speek] at hp; simp [hp])
        have hmem2 : nd ∈ t := List.mem_of_mem_filter hmem
        have hfal2 : law (Domain.head nd) = false := by
          have := (List.mem_filter.mp hmem).2
          rw [_is_counter_example] at this
          simpa using this
        have h3 : Domain.size nd ≤ sizeListD t := size_le_sizeListD_of_mem hmem2
        rw [Domain.size] at hle
        exact ih nd (by omega) hfal2
      | none =>
        rw [search_of_peek_none hp]
        simpa [Domain.head] using hfal

theorem trim_falsifies {α : Type} (law : Assign α → Bool)
    (ce : List (String × Domain α))
    (h : law ((_distribute_dict_domain ce).head) = false) :
    law (_trim_counter_example law ce) = false := by
  rw [_trim_counter_example]
  exact search_falsifies law (Domain.size (_distribute_dict_domain ce)) _ le_rfl h

/-!  The trial loop as an iterated state transformer. -/

/-- The PRNG State after n full trials of a Unit: each trial advances the
State through every parameter Sampler in declared order. -/
def stateAfter {σ α : Type} (u : Unit σ α) : Nat → σ → σ
  | 0, st => st
  | n + 1, st => stateAfter u n (sampleArgs u.args st).1

/-- The Domains sampled by trial n (counted from 0) of a Unit started in a
given State. -/
def trialDomains {σ α : Type} (u : Unit σ α) (n : Nat) (st : σ) :
    List (String × Domain α) :=
  (sampleArgs u.args (stateAfter u n st)).2

/-- The head values of the Domains sampled by trial n of a Unit. -/
def trialHeads {σ α : Type} (u : Unit σ α) (n : Nat) (st : σ) : Assign α :=
  (trialDomains u n st).map fun kv => (kv.1, Domain.head kv.2)

theorem stateAfter_succ {σ α : Type} (u : Unit σ α) (n : Nat) (st : σ) :
    stateAfter u (n + 1) st = stateAfter u n (sampleArgs u.args st).1 := rfl

theorem trialHeads_succ {σ α : Type} (u : Unit σ α) (n : Nat) (st : σ) :
    trialHeads u (n + 1) st = trialHeads u n (sampleArgs u.args st).1 := rfl

theorem trialDomains_succ {σ α : Type} (u : Unit σ α) (n : Nat) (st : σ) :
    trialDomains u (n + 1) st = trialDomains u n (sampleArgs u.args st).1 := rfl

theorem find_pass_all {σ α : Type} (name : String) (u : Unit σ α) :
    ∀ (count : Nat) (st : σ),
    (∀ i, i < count → u.law (trialHeads u i st) = true) →
    _find_counter_example name count u st = (stateAfter u count st, none) := by
  intro count
  induction count with
  | zero =>
    intro st hall
    rw [_find_counter_example]
    rfl
  | succ n ih =>
    intro st hall
    have h0 : u.law ((sampleArgs u.args st).2.map
        fun kv => (kv.1, Domain.head kv.2)) = true := by
      have := hall 0 (by omega)
      rw [trialHeads, trialDomains] at this
      exact this
    rw [_find_counter_example]
    simp only [h0, if_true]
    rw [stateAfter_succ]
    exact ih (sampleArgs u.args st).1 fun i hi => by
      rw [← trialHeads_succ]
      exact hall (i + 1) (by omega)

theorem find_first_fail {σ α : Type} (name : String) (u : Unit σ α) :
    ∀ (count k : Nat) (st : σ), k < count →
    u.law (trialHeads u k st) = false →
    (∀ i, i < k → u.law (trialHeads u i st) = true) →
    _find_counter_example name count u st =
      (stateAfter u (k + 1) st,
        some (_trim_counter_example u.law (trialDomains u k st))) := by
  intro count
  induction count with
  | zero =>
    intro k st hk
    omega
  | succ n ih =>
    intro k st hk hfail hprev
    cases k with
    | zero =>
      have h0 : u.law ((sampleArgs u.args st).2.map
          fun kv => (kv.1, Domain.head kv.2)) = false := by
        rw [trialHeads, trialDomains] at hfail
        exact hfail
      rw [_find_counter_example]
      simp only [h0, Bool.false_eq_true, if_false]
      rfl
    | succ k2 =>
      have h0 : u.law ((sampleArgs u.args st).2.map
          fun kv => (kv.1, Domain.head kv.2)) = true := by
        have := hprev 0 (by omega)
        rw [trialHeads, trialDomains] at this
        exact this
      rw [_find_counter_example]
      simp only [h0, if_true]
      rw [stateAfter_succ, trialDomains_succ]
      exact ih k2 (sampleArgs u.args st).1 (by omega)
        (by rw [← trialHeads_succ]; exact hfail)
        (fun i hi => by rw [← trialHeads_succ]; exact hprev (i + 1) (by omega))

/-!  Suite-level definitions used for determinism and short-circuiting. -/

/-- The sequence of head-value maps evaluated by the trial loop of one Test,
in trial order, ending early at the first failing trial. -/
def unitHeads {σ α : Type} (count : Nat) (u : Unit σ α) (state : σ) :
    List (Assign α) :=
  match count with
  | 0 => []
  | n + 1 =>
    let sr := sampleArgs u.args state
    let hd := sr.2.map fun kv => (kv.1, Domain.head kv.2)
    if u.law hd then hd :: unitHeads n u sr.1 else [hd]

/-- A Suite built from a list of Test declarations (name, trial count, Unit)
through the test decorator, in declaration order. -/
def suiteDecls {σ α : Type} (ds : List (String × Nat × Unit σ α)) : Suite σ α :=
  Suite.mk (ds.map fun d => test d.1 d.2.1 d.2.2)

/-- The full sequence of head-value maps sampled by a Suite run over Test
declarations, threading the State across Tests and stopping after the first
failing Test, exactly as Suite.evaluate does. -/
def suiteTrace {σ α : Type} (state : σ) :
    List (String × Nat × Unit σ α) → List (Assign α)
  | [] => []
  | (name, count, u) :: rest =>
    let sr := _find_counter_example name count u state
    match sr.2 with
    | none => unitHeads count u state ++ suiteTrace sr.1 rest
    | some _ => unitHeads count u state

/-- Every Test of the list passes within its budget when run from the given
State, with the State threaded from each Test into the next. -/
inductive PassAll {σ α : Type} : σ → List (Test σ α) → Prop where
  | nil (st : σ) : PassAll st []
  | cons (st st2 : σ) (t : Test σ α) (rest : List (Test σ α))
      (h : t.unit st = (st2, none)) (hrest : PassAll st2 rest) :
      PassAll st (t :: rest)

/-!  Lemmas about dict insertion, zipping and the inference loop of the
domain decorator. -/

theorem alookup_eq_none_iff {β : Type} (args : List (String × β)) (p : String) :
    alookup args p = none ↔ p ∉ args.map Prod.fst := by
  induction args with
  | nil => simp [alookup]
  | cons kv rest ih =>
    obtain ⟨k2, v2⟩ := kv
    by_cases hk : k2 = p
    · subst hk
      simp [alookup]
    · simp only [alookup, if_neg hk, List.map_cons, List.mem_cons, ih]
      constructor
      · intro h
        rintro (h2 | h2)
        · exact hk h2.symm
        · exact h h2
      · intro h
        exact fun h2 => h (Or.inr h2)

theorem alookup_isSome_of_mem_keys {β : Type} {args : List (String × β)}
    {p : String} (h : p ∈ args.map Prod.fst) : (alookup args p).isSome = true := by
  cases halo : alookup args p with
  | none => exact absurd h ((alookup_eq_none_iff args p).mp halo)
  | some v => rfl

theorem alookup_append {β : Type} (pre suf : List (String × β)) (q : String) :
    alookup (pre ++ suf) q =
      match alookup pre q with
      | some v => some v
      | none => alookup suf q := by
  induction pre with
  | nil => simp [alookup]
  | cons kv rest ih =>
    obtain ⟨k2, v2⟩ := kv
    by_cases hk : k2 = q
    · subst hk
      simp [alookup]
    · rw [List.cons_append, alookup, if_neg hk, ih, alookup, if_neg hk]

theorem alookup_aupdate_self {β : Type} {args : List (String × β)}
    {k : String} (v : β) (h : (alookup args k).isSome = true) :
    alookup (aupdate args k v) k = some v := by
  induction args with
  | nil => simp [alookup] at h
  | cons kv rest ih =>
    obtain ⟨k2, v2⟩ := kv
    by_cases hk : k2 = k
    · subst hk
      rw [aupdate, if_pos rfl, alookup, if_pos rfl]
    · rw [alookup, if_neg hk] at h
      rw [aupdate, if_neg hk, alookup, if_neg hk]
      exact ih h

theorem alookup_dinsert_self {β : Type} (args : List (String × β))
    (k : String) (v : β) : alookup (dinsert args k v) k = some v := by
  rw [dinsert]
  by_cases hc : (args.map Prod.fst).contains k = true
  · rw [if_pos hc]
    exact alookup_aupdate_self v ((contains_keys_iff args k).mp hc)
  · rw [if_neg hc, alookup_append]
    have hnone : alookup args k = none := by
      cases halo : alookup args k with
      | none => rfl
      | some v2 =>
        exact absurd ((contains_keys_iff args k).mpr (by rw [halo]; rfl)) hc
    rw [hnone]
    exact alookup_cons_self k v []

theorem alookup_dinsert_ne {β : Type} (args : List (String × β))
    {k q : String} (v : β) (h : q ≠ k) :
    alookup (dinsert args k v) q = alookup args q := by
  rw [dinsert]
  by_cases hc : (args.map Prod.fst).contains k = true
  · rw [if_pos hc]
    exact alookup_aupdate_ne args v h
  · rw [if_neg hc, alookup_append]
    cases halo : alookup args q with
    | none => simp [alookup, Ne.symm h]
    | some v2 => rfl

theorem alookup_dinsert_isSome {β : Type} (args : List (String × β))
    (k : String) (v : β) {q : String} (h : (alookup args q).isSome = true) :
    (alookup (dinsert args k v) q).isSome = true := by
  by_cases hq : q = k
  · subst hq
    rw [alookup_dinsert_self]
    rfl
  · rw [alookup_dinsert_ne args v hq]
    exact h

theorem foldl_dinsert_notin {σ α : Type} :
    ∀ (kparams : List (String × Sampler σ α)) (args0 : List (String × Sampler σ α))
    (p : String), alookup kparams p = none →
    alookup (List.foldl (fun acc kv => dinsert acc kv.1 kv.2) args0 kparams) p =
      alookup args0 p := by
  intro kparams
  induction kparams with
  | nil => intro args0 p h; rfl
  | cons kv rest ih =>
    intro args0 p h
    obtain ⟨k2, v2⟩ := kv
    rw [alookup] at h
    by_cases hk : k2 = p
    · rw [if_pos hk] at h
      cases h
    · rw [if_neg hk] at h
      rw [List.foldl_cons, ih (dinsert args0 k2 v2) p h]
      exact alookup_dinsert_ne args0 v2 fun he => hk he.symm

theorem foldl_dinsert_some {σ α : Type} :
    ∀ (kparams : List (String × Sampler σ α)) (args0 : List (String × Sampler σ α))
    (p : String) (smp : Sampler σ α), (kparams.map Prod.fst).Nodup →
    alookup kparams p = some smp →
    alookup (List.foldl (fun acc kv => dinsert acc kv.1 kv.2) args0 kparams) p =
      some smp := by
  intro kparams
  induction kparams with
  | nil => intro args0 p smp hnd h; cases h
  | cons kv rest ih =>
    intro args0 p smp hnd h
    obtain ⟨k2, v2⟩ := kv
    rw [alookup] at h
    rw [List.map_cons, List.nodup_cons] at hnd
    by_cases hk : k2 = p
    · rw [if_pos hk] at h
      have hv : v2 = smp := Option.some.inj h
      subst hv
      subst hk
      have hrest : alookup rest k2 = none :=
        (alookup_eq_none_iff rest k2).mpr hnd.1
      rw [List.foldl_cons, foldl_dinsert_notin rest (dinsert args0 k2 v2) k2 hrest]
      exact alookup_dinsert_self args0 k2 v2
    · rw [if_neg hk] at h
      rw [List.foldl_cons]
      exact ih (dinsert args0 k2 v2) p smp hnd.2 h

theorem zip_take_eq {β : Type} :
    ∀ (ks : List String) (vs : List β),
    List.zip (ks.take vs.length) vs = List.zip ks vs := by
  intro ks
  induction ks with
  | nil => intro vs; simp
  | cons k ks2 ih =>
    intro vs
    cases vs with
    | nil => simp
    | cons v vs2 =>
      simp only [List.length_cons, List.take_succ_cons, List.zip_cons_cons]
      rw [ih vs2]

theorem alookup_zip_getElem {β : Type} :
    ∀ (ks : List String) (vs : List β) (i : Nat) (p : String), ks.Nodup →
    ks[i]? = some p → alookup (List.zip ks vs) p = vs[i]? := by
  intro ks
  induction ks with
  | nil => intro vs i p hnd h; simp at h
  | cons k ks2 ih =>
    intro vs i p hnd h
    cases vs with
    | nil => simp [alookup]
    | cons v vs2 =>
      rw [List.nodup_cons] at hnd
      cases i with
      | zero =>
        simp only [List.getElem?_cons_zero, Option.some.injEq] at h
        subst h
        rw [List.zip_cons_cons, alookup_cons_self]
        simp
      | succ i2 =>
        rw [List.getElem?_cons_succ] at h
        have hne : k ≠ p := by
          intro he
          subst he
          exact hnd.1 (List.getElem?_mem h)
        rw [List.zip_cons_cons, alookup, if_neg hne, List.getElem?_cons_succ]
        exact ih vs2 i2 p hnd.2 h

theorem infer_missing_preserved {σ α τ : Type} (infer : τ → Option (Sampler σ α))
    (law_name : String) (arg_types : List (String × τ)) :
    ∀ (missing : List String) (args res : List (String × Sampler σ α))
    (p : String), p ∉ missing →
    _infer_missing infer law_name arg_types missing args = Except.ok res →
    alookup res p = alookup args p := by
  intro missing
  induction missing with
  | nil =>
    intro args res p hp h
    rw [_infer_missing] at h
    cases h
    rfl
  | cons q rest ih =>
    intro args res p hp h
    rw [List.mem_cons] at hp
    push_neg at hp
    rw [_infer_missing] at h
    cases hty : alookup arg_types q with
    | none => simp only [hty] at h; cases h
    | some ty =>
      simp only [hty] at h
      cases hin : infer ty with
      | none => simp only [hin] at h; cases h
      | some smp =>
        simp only [hin] at h
        rw [ih (dinsert args q smp) res p hp.2 h]
        exact alookup_dinsert_ne args smp hp.1

theorem infer_missing_infers {σ α τ : Type} (infer : τ → Option (Sampler σ α))
    (law_name : String) (arg_types : List (String × τ)) :
    ∀ (missing : List String) (args res : List (String × Sampler σ α))
    (p : String), missing.Nodup → p ∈ missing →
    _infer_missing infer law_name arg_types missing args = Except.ok res →
    alookup res p = (alookup arg_types p).bind infer := by
  intro missing
  induction missing with
  | nil => intro args res p hnd hp h; cases hp
  | cons q rest ih =>
    intro args res p hnd hp h
    rw [List.nodup_cons] at hnd
    rw [_infer_missing] at h
    cases hty : alookup arg_types q with
    | none => simp only [hty] at h; cases h
    | some ty =>
      simp only [hty] at h
      cases hin : infer ty with
      | none => simp only [hin] at h; cases h
      | some smp =>
        simp only [hin] at h
        rcases List.mem_cons.mp hp with hq | hq
        · subst hq
          rw [infer_missing_preserved infer law_name arg_types rest
            (dinsert args p smp) res p hnd.1 h]
          rw [alookup_dinsert_self, hty, Option.some_bind, hin]
        · exact ih (dinsert args q smp) res p hnd.2 hq h

theorem infer_missing_isSome {σ α τ : Type} (infer : τ → Option (Sampler σ α))
    (law_name : String) (arg_types : List (String × τ)) :
    ∀ (missing : List String) (args res : List (String × Sampler σ α))
    (p : String), (p ∈ missing ∨ (alookup args p).isSome = true) →
    _infer_missing infer law_name arg_types missing args = Except.ok res →
    (alookup res p).isSome = true := by
  intro missing
  induction missing with
  | nil =>
    intro args res p hp h
    rw [_infer_missing] at h
    cases h
    rcases hp with hp | hp
    · cases hp
    · exact hp
  | cons q rest ih =>
    intro args res p hp h
    rw [_infer_missing] at h
    cases hty : alookup arg_types q with
    | none => simp only [hty] at h; cases h
    | some ty =>
      simp only [hty] at h
      cases hin : infer ty with
      | none => simp only [hin] at h; cases h
      | some smp =>
        simp only [hin] at h
        apply ih (dinsert args q smp) res p _ h
        rcases hp with hp | hp
        · rcases List.mem_cons.mp hp with hq | hq
          · subst hq
            right
            rw [alookup_dinsert_self]
            rfl
          · left
            exact hq
        · right
          exact alookup_dinsert_isSome args q smp hp

theorem infer_missing_first_error {σ α τ : Type} (infer : τ → Option (Sampler σ α))
    (law_name : String) (arg_types : List (String × τ)) :
    ∀ (missing : List String) (args : List (String × Sampler σ α)) (p : String),
    (∀ q ∈ missing, (alookup arg_types q).isSome = true) →
    missing.find? (fun q => ((alookup arg_types q).bind infer).isNone) = some p →
    _infer_missing infer law_name arg_types missing args =
      Except.error ("Failed to infer domain for parameter " ++ p ++
        " of functions " ++ law_name) := by
  intro missing
  induction missing with
  | nil => intro args p hsub h; cases h
  | cons q rest ih =>
    intro args p hsub h
    cases hty : alookup arg_types q with
    | none =>
      exact absurd (hsub q (List.mem_cons_self _ _)) (by rw [hty]; simp)
    | some ty =>
      cases hin : infer ty with
      | none =>
        simp only [List.find?_cons, hty, Option.some_bind, hin,
          Option.isNone_none, Option.some.injEq] at h
        subst h
        rw [_infer_missing]
        simp only [hty, hin]
      | some smp =>
        simp only [List.find?_cons, hty, Option.some_bind, hin,
          Option.isNone_some] at h
        rw [_infer_missing]
        simp only [hty, hin]
        exact ih (dinsert args q smp) p
          (fun q2 hq2 => hsub q2 (List.mem_cons_of_mem _ hq2)) h

theorem infer_missing_all_ok {σ α τ : Type} (infer : τ → Option (Sampler σ α))
    (law_name : String) (arg_types : List (String × τ)) :
    ∀ (missing : List String) (args : List (String × Sampler σ α)),
    (∀ q ∈ missing, (alookup arg_types q).isSome = true) →
    missing.find? (fun q => ((alookup arg_types q).bind infer).isNone) = none →
    ∃ res, _infer_missing infer law_name arg_types missing args =
      Except.ok res := by
  intro missing
  induction missing with
  | nil =>
    intro args hsub h
    exact ⟨args, by rw [_infer_missing]⟩
  | cons q rest ih =>
    intro args hsub h
    rw [List.find?_eq_none] at h
    cases hty : alookup arg_types q with
    | none =>
      exact absurd (hsub q (List.mem_cons_self _ _)) (by rw [hty]; simp)
    | some ty =>
      cases hin : infer ty with
      | none =>
        exact absurd (by rw [hty, Option.some_bind, hin]; rfl)
          (h q (List.mem_cons_self _ _))
      | some smp =>
        obtain ⟨res, hres⟩ := ih (dinsert args q smp)
          (fun q2 hq2 => hsub q2 (List.mem_cons_of_mem _ hq2))
          (List.find?_eq_none.mpr fun q2 hq2 => h q2 (List.mem_cons_of_mem _ hq2))
        exact ⟨res, by rw [_infer_missing]; simp only [hty, hin]; exact hres⟩

/-!  Concrete instances used by the witnesses. -/

/-- A concrete Sampler over Nat states: advances the state by one and yields
the value 5 with shrink candidates 2 and 0. -/
def exSampler : Sampler Nat Nat :=
  fun st => (st + 1, Domain.mk 5 [Domain.mk 2 [], Domain.mk 0 []])

/-- A concrete law over one named parameter x, holding only for x = 0. -/
def exLaw : Assign Nat → Bool :=
  fun a => ((alookup a "x").getD 0) == 0

/-- A concrete Unit binding exLaw to exSampler for parameter x. -/
def exUnit : Unit Nat Nat := Unit.mk exLaw [("x", exSampler)] []

theorem exUnit_find_eval :
    _find_counter_example "t" 1 exUnit 0 = (1, some [("x", 2)]) := by
  have hl5 : alookup [("x", Domain.mk (5:Nat) [Domain.mk 2 [], Domain.mk 0 []])] "x" =
      some (Domain.mk 5 [Domain.mk 2 [], Domain.mk 0 []]) := by
    simp [alookup]
  have ht5 : Domain.tail (Domain.mk (5:Nat) [Domain.mk 2 [], Domain.mk 0 []]) =
      Domain.mk 2 [] :: [Domain.mk 0 []] := rfl
  have e1 : _distribute_dict_domain
      [("x", Domain.mk (5:Nat) [Domain.mk 2 [], Domain.mk 0 []])] =
      Domain.mk [("x", 5)] [_distribute_dict_domain [("x", Domain.mk 2 [])]] := by
    rw [dist_def]
    simp only [List.map]
    rw [distThunk_cons_yield hl5 ht5, distThunk_nil]
    simp [aupdate, Domain.head]
  have hl2 : alookup [("x", Domain.mk (2:Nat) [])] "x" = some (Domain.mk 2 []) := by
    simp [alookup]
  have e2 : _distribute_dict_domain [("x", Domain.mk (2:Nat) [])] =
      Domain.mk [("x", 2)] [] := by
    rw [dist_def]
    simp only [List.map]
    rw [distThunk_cons_skip hl2 rfl, distThunk_nil]
    simp [Domain.head]
  have e3 : _search exLaw (Domain.mk [("x", (2:Nat))] []) = [("x", 2)] :=
    search_of_peek_none (by simp [speek, sfilter])
  have hpk : speek (sfilter (_is_counter_example exLaw)
      [_distribute_dict_domain [("x", Domain.mk (2:Nat) [])]]) =
      some (Domain.mk [("x", 2)] []) := by
    rw [e2]
    simp [speek, sfilter, _is_counter_example, Domain.head, exLaw, alookup]
  have e4 : _search exLaw (_distribute_dict_domain
      [("x", Domain.mk (5:Nat) [Domain.mk 2 [], Domain.mk 0 []])]) = [("x", 2)] := by
    rw [e1, search_of_peek_some hpk]
    exact e3
  rw [_find_counter_example]
  have hl : exLaw (List.map (fun kv => (kv.1, Domain.head kv.2))
      [("x", Domain.mk (5:Nat) [Domain.mk 2 [], Domain.mk 0 []])]) = false := by
    simp [exLaw, alookup, Domain.head]
  simp only [exUnit, sampleArgs, exSampler]
  simp only [hl, Bool.false_eq_true, if_false, _trim_counter_example]
  rw [e4]

/-!  Claim theorems. -/

/-- C1: for every law and every Test search, whenever the compiled search
procedure _find_counter_example returns Something with a reported
counterexample map, evaluating the law on that map returns false. -/
theorem find_counter_example_sound {σ α : Type} (name : String) :
    ∀ (count : Nat) (u : Unit σ α) (state st2 : σ) (ce : Assign α),
    _find_counter_example name count u state = (st2, some ce) →
    u.law ce = false := by
  intro count
  induction count with
  | zero =>
    intro u st st2 ce h
    rw [_find_counter_example] at h
    cases h
  | succ n ih =>
    intro u st st2 ce h
    rw [_find_counter_example] at h
    cases hlaw : u.law ((sampleArgs u.args st).2.map
        fun kv => (kv.1, Domain.head kv.2)) with
    | true =>
      rw [hlaw, if_pos rfl] at h
      exact ih u (sampleArgs u.args st).1 st2 ce h
    | false =>
      rw [hlaw] at h
      simp only [Bool.false_eq_true, if_false, Prod.mk.injEq,
        Option.some.injEq] at h
      rw [← h.2]
      apply trim_falsifies
      rw [dist_head]
      exact hlaw

/-- C1 witness: on the concrete Unit exUnit the search reports the
counterexample map x = 2, and the law indeed evaluates to false on it. -/
theorem find_counter_example_sound_witness : exUnit.law [("x", 2)] = false :=
  find_counter_example_sound "t" 1 exUnit 0 1 [("x", 2)] exUnit_find_eval

/-- C2: the minimization search _trim_counter_example equals the greedy loop
written from the words of the spec: repeatedly filter the current combined
Domain shrink stream to the candidates whose head values falsify the law,
peek the first match, make its head the new current best and continue on the
candidate own shrink stream, and return the current best when no candidate
falsifies. -/
theorem trim_counter_example_is_greedy {α : Type} (law : Assign α → Bool)
    (counter_example : List (String × Domain α)) :
    _trim_counter_example law counter_example =
      trimSpec law (Domain.head (_distribute_dict_domain counter_example))
        (Domain.tail (_distribute_dict_domain counter_example)) := by
  rw [_trim_counter_example]
  exact search_eq_trimSpec_aux law
    (Domain.size (_distribute_dict_domain counter_example)) _ le_rfl

/-- C3: for a non-empty argument map with distinct parameter names, the
combined Domain built by _distribute_dict_domain has as head the map of every
parameter to the head of its Domain; the first element of its tail stream
substitutes the first parameter whose own tail is non-empty with the first
Domain of that tail while holding every other parameter unchanged (parameters
with empty tails are skipped, not terminating); and the combined tail stream
is empty exactly when every parameter tail is empty. -/
theorem distribute_dict_domain_spec {α : Type} (args : List (String × Domain α))
    (hnd : (args.map Prod.fst).Nodup) (hne : args ≠ []) :
    (∀ p, alookup (Domain.head (_distribute_dict_domain args)) p =
        (alookup args p).map Domain.head) ∧
    (speek (Domain.tail (_distribute_dict_domain args)) =
      (firstShrinkable args).map fun pr =>
        _distribute_dict_domain (aupdate args pr.1 pr.2)) ∧
    (∀ (p : String) (v : Domain α) (q : String), q ≠ p →
        alookup (aupdate args p v) q = alookup args q) ∧
    (Domain.tail (_distribute_dict_domain args) = [] ↔
      ∀ kv ∈ args, Domain.tail kv.2 = []) := by
  refine ⟨?_, ?_, ?_, ?_⟩
  · intro p
    rw [dist_head]
    exact alookup_map_value Domain.head args p
  · rw [dist_tail_char args hnd, speek]
    exact head_filterMap_shrink args args
  · intro p v q hq
    exact alookup_aupdate_ne args v hq
  · rw [dist_tail_char args hnd, List.filterMap_eq_nil_iff]
    constructor
    · intro h kv hkv
      have := h kv hkv
      rw [Option.map_eq_none'] at this
      exact (List.head?_eq_none_iff).mp this
    · intro h kv hkv
      rw [Option.map_eq_none', List.head?_eq_none_iff]
      exact h kv hkv

/-- C3 witness: the characterization applied to a concrete two-parameter map
whose first parameter has shrink candidates and whose second has none. -/
theorem distribute_dict_domain_spec_witness :
    (∀ p, alookup (Domain.head (_distribute_dict_domain
        [("x", Domain.mk (5:Nat) [Domain.mk 2 []]), ("y", Domain.mk 7 [])])) p =
        (alookup [("x", Domain.mk (5:Nat) [Domain.mk 2 []]),
          ("y", Domain.mk 7 [])] p).map Domain.head) ∧
    (speek (Domain.tail (_distribute_dict_domain
        [("x", Domain.mk (5:Nat) [Domain.mk 2 []]), ("y", Domain.mk 7 [])])) =
      (firstShrinkable [("x", Domain.mk (5:Nat) [Domain.mk 2 []]),
          ("y", Domain.mk 7 [])]).map fun pr =>
        _distribute_dict_domain (aupdate [("x", Domain.mk (5:Nat) [Domain.mk 2 []]),
          ("y", Domain.mk 7 [])] pr.1 pr.2)) ∧
    (∀ (p : String) (v : Domain Nat) (q : String), q ≠ p →
        alookup (aupdate [("x", Domain.mk (5:Nat) [Domain.mk 2 []]),
          ("y", Domain.mk 7 [])] p v) q =
        alookup [("x", Domain.mk (5:Nat) [Domain.mk 2 []]),
          ("y", Domain.mk 7 [])] q) ∧
    (Domain.tail (_distribute_dict_domain
        [("x", Domain.mk (5:Nat) [Domain.mk 2 []]), ("y", Domain.mk 7 [])]) = [] ↔
      ∀ kv ∈ [("x", Domain.mk (5:Nat) [Domain.mk 2 []]), ("y", Domain.mk 7 [])],
        Domain.tail kv.2 = []) :=
  distribute_dict_domain_spec
    [("x", Domain.mk (5:Nat) [Domain.mk 2 []]), ("y", Domain.mk 7 [])]
    (by decide) (List.cons_ne_nil _ _)

/-- C8: with distinct parameter names the combined shrink stream enumerates,
in declared parameter order, exactly one candidate per parameter whose own
tail is non-empty (each obtained by substituting that parameter first shrink,
empty-tailed parameters being skipped), so a stream never revisits a
parameter it has passed; and the depth-first enumeration of the combined
shrink tree lists the head map first and then the complete subtree of each
candidate, in that left-to-right order, before the next parameter candidate. -/
theorem distribute_shrink_depth_first {α : Type}
    (args : List (String × Domain α)) (hnd : (args.map Prod.fst).Nodup) :
    (Domain.tail (_distribute_dict_domain args) =
      args.filterMap fun kv => ((Domain.tail kv.2).head?).map fun next =>
        _distribute_dict_domain (aupdate args kv.1 next)) ∧
    (dfsD (_distribute_dict_domain args) =
      (args.map fun kv => (kv.1, Domain.head kv.2)) ::
        ((args.filterMap fun kv => ((Domain.tail kv.2).head?).map fun next =>
          _distribute_dict_domain (aupdate args kv.1 next)).map dfsD).flatten) := by
  have h1 := dist_tail_char args hnd
  refine ⟨h1, ?_⟩
  rw [dist_def, dfsD, dfsList_eq_flatten]
  have h2 : distThunk args (args.map Prod.fst) =
      args.filterMap fun kv => ((Domain.tail kv.2).head?).map fun next =>
        _distribute_dict_domain (aupdate args kv.1 next) := by
    simpa using distThunk_append args [] (by simpa using hnd)
  rw [h2]

/-- C8 witness: the characterization applied to a concrete two-parameter
map, with the first parameter shrinkable twice and the second once. -/
theorem distribute_shrink_depth_first_witness :
    (Domain.tail (_distribute_dict_domain
        [("a", Domain.mk (3:Nat) [Domain.mk 1 []]), ("b", Domain.mk 4 [])]) =
      [("a", Domain.mk (3:Nat) [Domain.mk 1 []]),
          ("b", Domain.mk 4 [])].filterMap fun kv =>
        ((Domain.tail kv.2).head?).map fun next =>
          _distribute_dict_domain (aupdate
            [("a", Domain.mk (3:Nat) [Domain.mk 1 []]), ("b", Domain.mk 4 [])]
            kv.1 next)) ∧
    (dfsD (_distribute_dict_domain
        [("a", Domain.mk (3:Nat) [Domain.mk 1 []]), ("b", Domain.mk 4 [])]) =
      ([("a", Domain.mk (3:Nat) [Domain.mk 1 []]),
          ("b", Domain.mk 4 [])].map fun kv => (kv.1, Domain.head kv.2)) ::
        (([("a", Domain.mk (3:Nat) [Domain.mk 1 []]),
            ("b", Domain.mk 4 [])].filterMap fun kv =>
          ((Domain.tail kv.2).head?).map fun next =>
            _distribute_dict_domain (aupdate
              [("a", Domain.mk (3:Nat) [Domain.mk 1 []]), ("b", Domain.mk 4 [])]
              kv.1 next)).map dfsD).flatten) :=
  distribute_shrink_depth_first
    [("a", Domain.mk (3:Nat) [Domain.mk 1 []]), ("b", Domain.mk 4 [])]
    (by decide)

/-- C10: whenever the search returns Something, the returned State is exactly
the State as it stood after sampling the failing trial Domains, and the
reported map is computed by _trim_counter_example from those Domains alone:
the minimization consumes no randomness (its type involves no State). -/
theorem find_counter_example_state_frame {σ α : Type} (name : String)
    (u : Unit σ α) :
    ∀ (count : Nat) (st st2 : σ) (ce : Assign α),
    _find_counter_example name count u st = (st2, some ce) →
    ∃ k, k < count ∧ u.law (trialHeads u k st) = false ∧
      st2 = stateAfter u (k + 1) st ∧
      ce = _trim_counter_example u.law (trialDomains u k st) := by
  intro count
  induction count with
  | zero =>
    intro st st2 ce h
    rw [_find_counter_example] at h
    cases h
  | succ n ih =>
    intro st st2 ce h
    rw [_find_counter_example] at h
    cases hlaw : u.law ((sampleArgs u.args st).2.map
        fun kv => (kv.1, Domain.head kv.2)) with
    | true =>
      rw [hlaw, if_pos rfl] at h
      obtain ⟨k, hk, hfail, hst, hce⟩ := ih (sampleArgs u.args st).1 st2 ce h
      refine ⟨k + 1, by omega, ?_, ?_, ?_⟩
      · rw [trialHeads_succ]
        exact hfail
      · rw [stateAfter_succ]
        exact hst
      · rw [trialDomains_succ]
        exact hce
    | false =>
      rw [hlaw] at h
      simp only [Bool.false_eq_true, if_false, Prod.mk.injEq,
        Option.some.injEq] at h
      refine ⟨0, by omega, ?_, ?_, ?_⟩
      · rw [trialHeads, trialDomains]
        exact hlaw
      · rw [stateAfter_succ]
        exact h.1.symm
      · rw [trialDomains]
        exact h.2.symm

/-- C10 witness: on the concrete Unit exUnit the returned State 1 is the
State after sampling the single failing trial, and the reported map is the
trim of that trial Domains. -/
theorem find_counter_example_state_frame_witness :
    ∃ k, k < 1 ∧ exUnit.law (trialHeads exUnit k 0) = false ∧
      (1 : Nat) = stateAfter exUnit (k + 1) 0 ∧
      [("x", (2:Nat))] = _trim_counter_example exUnit.law (trialDomains exUnit k 0) :=
  find_counter_example_state_frame "t" exUnit 1 0 1 [("x", 2)] exUnit_find_eval

/-- C4: the compiled search runs at most count trials, threading the State
through every parameter Sampler per trial in declared order: if every trial
head map satisfies the law the result is Nothing with the final threaded
State, and at the first failing trial no further trial is sampled, the
Domain map of that trial is minimized, and the State returned is the one
after sampling that trial. -/
theorem find_counter_example_trial_loop {σ α : Type} (name : String)
    (u : Unit σ α) (count : Nat) (st : σ) :
    ((∀ i, i < count → u.law (trialHeads u i st) = true) →
      _find_counter_example name count u st = (stateAfter u count st, none)) ∧
    (∀ k, k < count → u.law (trialHeads u k st) = false →
      (∀ i, i < k → u.law (trialHeads u i st) = true) →
      _find_counter_example name count u st =
        (stateAfter u (k + 1) st,
          some (_trim_counter_example u.law (trialDomains u k st)))) :=
  ⟨fun h => find_pass_all name u count st h,
    fun k hk hf hp => find_first_fail name u count k st hk hf hp⟩

/-- C4 witness: on the concrete Unit exUnit with one trial, trial 0 fails and
the search returns the State after that trial with the trimmed map. -/
theorem find_counter_example_trial_loop_witness :
    _find_counter_example "t" 1 exUnit 0 =
      (stateAfter exUnit 1 0,
        some (_trim_counter_example exUnit.law (trialDomains exUnit 0 0))) :=
  (find_counter_example_trial_loop "t" exUnit 1 0).2 0 (by omega)
    (by decide) (fun i hi => absurd hi (by omega))

/-- C5: determinism of a full Suite run as two-run equality: two Suites built
from equal Test declarations, evaluated from equal seeds, produce the same
boolean result (whatever the unused invocation arguments), the same sequence
of sampled head-value maps, and the same reported failing Test name and
counterexample. -/
theorem suite_evaluate_deterministic {σ α : Type}
    (ds1 ds2 : List (String × Nat × Unit σ α)) (seed1 seed2 : σ)
    (cli1 cli2 : List String) (hds : ds1 = ds2) (hseed : seed1 = seed2) :
    Suite.evaluate (suiteDecls ds1) seed1 cli1 =
      Suite.evaluate (suiteDecls ds2) seed2 cli2 ∧
    suiteTrace seed1 ds1 = suiteTrace seed2 ds2 ∧
    evalReport seed1 (suiteDecls ds1).tests =
      evalReport seed2 (suiteDecls ds2).tests := by
  subst hds
  subst hseed
  exact ⟨rfl, rfl, rfl⟩

/-- C5 witness: the two-run equality applied to a concrete one-Test Suite
with differing invocation arguments. -/
theorem suite_evaluate_deterministic_witness :
    Suite.evaluate (suiteDecls [("t", 1, exUnit)]) 0 [] =
      Suite.evaluate (suiteDecls [("t", 1, exUnit)]) 0 ["ignored"] ∧
    suiteTrace 0 [("t", 1, exUnit)] = suiteTrace 0 [("t", 1, exUnit)] ∧
    evalReport 0 (suiteDecls [("t", 1, exUnit)]).tests =
      evalReport 0 (suiteDecls [("t", 1, exUnit)]).tests :=
  suite_evaluate_deterministic [("t", 1, exUnit)] [("t", 1, exUnit)] 0 0
    [] ["ignored"] rfl rfl

theorem evalTests_eq_true_iff {σ α : Type} :
    ∀ (tests : List (Test σ α)) (st : σ),
    evalTests st tests = true ↔ PassAll st tests := by
  intro tests
  induction tests with
  | nil =>
    intro st
    constructor
    · intro h
      exact PassAll.nil st
    · intro h
      rfl
  | cons t rest ih =>
    intro st
    constructor
    · intro h
      rw [evalTests] at h
      cases hr : (t.unit st).2 with
      | none =>
        rw [hr] at h
        refine PassAll.cons st (t.unit st).1 t rest ?_ ((ih _).mp h)
        rw [← hr]
      | some ce =>
        rw [hr] at h
        cases h
    · intro h
      cases h with
      | cons st st2 t rest htu hrest =>
        rw [evalTests]
        simp only [htu]
        exact (ih _).mpr hrest

/-- C6: Suite.evaluate runs the Tests in declaration order threading the
State; its result is True exactly when every Test yields Nothing under that
threading, and on a Test whose search yields Something the result is False
and is independent of the remaining Tests (they are never run). -/
theorem suite_evaluate_short_circuit {σ α : Type} (st : σ)
    (tests : List (Test σ α)) :
    (∀ cli, Suite.evaluate (Suite.mk tests) st cli = evalTests st tests) ∧
    (evalTests st tests = true ↔ PassAll st tests) ∧
    (∀ (t : Test σ α) (rest1 rest2 : List (Test σ α)) (st2 : σ)
      (ce : Assign α), t.unit st = (st2, some ce) →
      evalTests st (t :: rest1) = false ∧
      evalTests st (t :: rest1) = evalTests st (t :: rest2)) := by
  refine ⟨fun cli => rfl, evalTests_eq_true_iff tests st, ?_⟩
  intro t rest1 rest2 st2 ce htu
  constructor
  · rw [evalTests]
    simp only [htu]
  · rw [evalTests]
    simp only [htu]
    rw [evalTests]
    simp only [htu]

/-- C6 witness: with a failing first Test the Suite evaluates to False
whatever Tests follow it, and the empty Suite evaluates to True. -/
theorem suite_evaluate_short_circuit_witness :
    (evalTests 0 [test "t" 1 exUnit] = false ∧
      evalTests 0 [test "t" 1 exUnit] =
        evalTests 0 [test "t" 1 exUnit, test "t2" 1 exUnit]) ∧
    evalTests (0 : Nat) ([] : List (Test Nat Nat)) = true :=
  ⟨(suite_evaluate_short_circuit 0 [test "t" 1 exUnit]).2.2
      (test "t" 1 exUnit) [] [test "t2" 1 exUnit] 1 [("x", 2)] exUnit_find_eval,
    (suite_evaluate_short_circuit 0 ([] : List (Test Nat Nat))).2.1.mpr
      (PassAll.nil 0)⟩

/-!  Concrete instances for the decorator claims. -/

/-- A concrete inference registry over Nat type descriptors: only the
descriptor 0 has a registered Sampler. -/
def exInfer : Nat → Option (Sampler Nat Nat) :=
  fun t => if t = 0 then some exSampler else none

/-- A reflected law with a parameter y whose type descriptor 1 has no
registered Sampler. -/
def exPyLawBad : PyLaw Nat Nat :=
  PyLaw.mk "bad_law" [("x", 0), ("y", 1)] (fun a => true)

/-- A concrete Sampler yielding the un-shrinkable value 1. -/
def exS1 : Sampler Nat Nat := fun st => (st + 1, Domain.mk 1 [])

/-- A concrete Sampler yielding the un-shrinkable value 2. -/
def exS2 : Sampler Nat Nat := fun st => (st + 2, Domain.mk 2 [])

/-- A reflected law with three inferable parameters x, y, z. -/
def exPyLaw3 : PyLaw Nat Nat :=
  PyLaw.mk "law3" [("x", 0), ("y", 0), ("z", 0)] (fun a => true)

/-- The Unit the domain decorator builds for exPyLaw3 with exS1 supplied
positionally and exS2 supplied by the keyword y: z is inferred. -/
def exUnit3 : Unit Nat Nat :=
  Unit.mk exPyLaw3.fn [("x", exS1), ("y", exS2), ("z", exSampler)] []

/-- C7: a law parameter with neither an explicit Sampler nor an inferable one
makes the domain decorator return the construction error naming that
parameter and the law, before anything is sampled; if every missing
parameter is inferable the decorator returns a Unit whose argument map
resolves every declared parameter, so no inference remains for run time. -/
theorem domain_construction_error {σ α τ : Type}
    (infer : τ → Option (Sampler σ α)) (lparams : List (Sampler σ α))
    (kparams : List (String × Sampler σ α)) (law : PyLaw τ α) :
    (∀ p, (_missing_params lparams kparams (law.params.map Prod.fst)).find?
        (fun q => ((alookup law.params q).bind infer).isNone) = some p →
      domain infer lparams kparams law = Except.error
        ("Failed to infer domain for parameter " ++ p ++
          " of functions " ++ law.name)) ∧
    ((_missing_params lparams kparams (law.params.map Prod.fst)).find?
        (fun q => ((alookup law.params q).bind infer).isNone) = none →
      ∃ u2, domain infer lparams kparams law = Except.ok u2 ∧
        u2.law = law.fn ∧
        ∀ p ∈ law.params.map Prod.fst, (alookup u2.args p).isSome = true) := by
  have hsub : ∀ q ∈ _missing_params lparams kparams (law.params.map Prod.fst),
      (alookup law.params q).isSome = true := by
    intro q hq
    rw [_missing_params] at hq
    exact alookup_isSome_of_mem_keys (List.mem_of_mem_filter hq)
  constructor
  · intro p hfind
    have herr := infer_missing_first_error infer law.name law.params
      (_missing_params lparams kparams (law.params.map Prod.fst))
      (_gather_args lparams kparams (law.params.map Prod.fst)) p hsub hfind
    rw [domain]
    simp only [herr]
  · intro hnone
    obtain ⟨res, hres⟩ := infer_missing_all_ok infer law.name law.params
      (_missing_params lparams kparams (law.params.map Prod.fst))
      (_gather_args lparams kparams (law.params.map Prod.fst)) hsub hnone
    refine ⟨Unit.mk law.fn res [], ?_, rfl, ?_⟩
    · rw [domain]
      simp only [hres]
    · intro p hp
      apply infer_missing_isSome infer law.name law.params _ _ res p _ hres
      by_cases hm : p ∈ _missing_params lparams kparams (law.params.map Prod.fst)
      · exact Or.inl hm
      · right
        rw [_missing_params] at hm
        have hcon : (((_gather_args lparams kparams
            (law.params.map Prod.fst)).map Prod.fst).contains p) = true := by
          by_contra hc
          exact hm (List.mem_filter.mpr ⟨hp, by
            rw [Bool.not_eq_true] at hc
            rw [hc]
            rfl⟩)
        exact (contains_keys_iff _ p).mp hcon

/-- C7 witness: for the concrete law bad_law whose parameter y has the
uninferable descriptor 1, the decorator returns the error naming y and
bad_law. -/
theorem domain_construction_error_witness :
    domain exInfer [] [] exPyLawBad = Except.error
      ("Failed to infer domain for parameter " ++ "y" ++
        " of functions " ++ exPyLawBad.name) :=
  (domain_construction_error exInfer [] [] exPyLawBad).1 "y" (by decide)

/-- C9: when the domain decorator succeeds, explicitly supplied Samplers take
precedence over inferred ones: a parameter named in the keyword samplers is
bound to that Sampler; otherwise a parameter whose declared position falls
within the positional sampler list is bound to the positional Sampler of the
same index; only the remaining parameters are bound to the Sampler inferred
from their declared type. -/
theorem domain_sampler_precedence {σ α τ : Type}
    (infer : τ → Option (Sampler σ α)) (lparams : List (Sampler σ α))
    (kparams : List (String × Sampler σ α)) (law : PyLaw τ α) (u : Unit σ α)
    (i : Nat) (p : String)
    (hnd : (law.params.map Prod.fst).Nodup)
    (hknd : (kparams.map Prod.fst).Nodup)
    (hok : domain infer lparams kparams law = Except.ok u)
    (hip : (law.params.map Prod.fst)[i]? = some p) :
    (∀ smp, alookup kparams p = some smp → alookup u.args p = some smp) ∧
    (alookup kparams p = none → i < lparams.length →
      alookup u.args p = lparams[i]?) ∧
    (alookup kparams p = none → lparams.length ≤ i →
      alookup u.args p = (alookup law.params p).bind infer) := by
  rw [domain] at hok
  cases hres : _infer_missing infer law.name law.params
      (_missing_params lparams kparams (law.params.map Prod.fst))
      (_gather_args lparams kparams (law.params.map Prod.fst)) with
  | error e =>
    simp only [hres] at hok
    cases hok
  | ok args2 =>
    simp only [hres] at hok
    obtain rfl : Unit.mk law.fn args2 [] = u := Except.ok.inj hok
    have huargs : (Unit.mk law.fn args2 ([] : List (String × (α → Bool)))).args
        = args2 := rfl
    rw [huargs]
    have hmemp : p ∈ law.params.map Prod.fst := List.getElem?_mem hip
    refine ⟨?_, ?_, ?_⟩
    · intro smp hk
      have hargs1 : alookup (_gather_args lparams kparams
          (law.params.map Prod.fst)) p = some smp := by
        rw [_gather_args]
        exact foldl_dinsert_some kparams _ p smp hknd hk
      have hnotmiss : p ∉ _missing_params lparams kparams
          (law.params.map Prod.fst) := by
        rw [_missing_params]
        intro hmem
        have h2 := (List.mem_filter.mp hmem).2
        rw [(contains_keys_iff _ p).mpr (by rw [hargs1]; rfl)] at h2
        cases h2
      rw [infer_missing_preserved infer law.name law.params _ _ args2 p
        hnotmiss hres]
      exact hargs1
    · intro hk hlt
      have hargs1 : alookup (_gather_args lparams kparams
          (law.params.map Prod.fst)) p = lparams[i]? := by
        rw [_gather_args, foldl_dinsert_notin kparams _ p hk, zip_take_eq]
        exact alookup_zip_getElem _ lparams i p hnd hip
      have hnotmiss : p ∉ _missing_params lparams kparams
          (law.params.map Prod.fst) := by
        rw [_missing_params]
        intro hmem
        have h2 := (List.mem_filter.mp hmem).2
        have hsome : (alookup (_gather_args lparams kparams
            (law.params.map Prod.fst)) p).isSome = true := by
          rw [hargs1, List.getElem?_eq_getElem hlt]
          rfl
        rw [(contains_keys_iff _ p).mpr hsome] at h2
        cases h2
      rw [infer_missing_preserved infer law.name law.params _ _ args2 p
        hnotmiss hres]
      exact hargs1
    · intro hk hge
      have hargs1 : alookup (_gather_args lparams kparams
          (law.params.map Prod.fst)) p = none := by
        rw [_gather_args, foldl_dinsert_notin kparams _ p hk, zip_take_eq,
          alookup_zip_getElem _ lparams i p hnd hip]
        exact List.getElem?_eq_none hge
      have hcf : (((_gather_args lparams kparams
          (law.params.map Prod.fst)).map Prod.fst).contains p) = false := by
        rw [Bool.eq_false_iff]
        intro hc
        have h2 := (contains_keys_iff _ p).mp hc
        rw [hargs1] at h2
        cases h2
      have hmiss : p ∈ _missing_params lparams kparams
          (law.params.map Prod.fst) := by
        rw [_missing_params]
        refine List.mem_filter.mpr ⟨hmemp, ?_⟩
        rw [hcf]
        rfl
      have hndmiss : (_missing_params lparams kparams
          (law.params.map Prod.fst)).Nodup := by
        rw [_missing_params]
        exact List.Nodup.filter _ hnd
      exact infer_missing_infers infer law.name law.params _ _ args2 p
        hndmiss hmiss hres

/-- C9 witness: for the concrete law law3 with exS1 supplied positionally and
exS2 supplied by keyword for y, the resolved Unit binds y to exS2, and the
positional and inference branches hold vacuously or concretely at index 1. -/
theorem domain_sampler_precedence_witness :
    (∀ smp, alookup [("y", exS2)] "y" = some smp →
      alookup exUnit3.args "y" = some smp) ∧
    (alookup [("y", exS2)] "y" = none → 1 < [exS1].length →
      alookup exUnit3.args "y" = [exS1][1]?) ∧
    (alookup [("y", exS2)] "y" = none → [exS1].length ≤ 1 →
      alookup exUnit3.args "y" =
        (alookup exPyLaw3.params "y").bind exInfer) :=
  domain_sampler_precedence exInfer [exS1] [("y", exS2)] exPyLaw3 exUnit3 1 "y"
    (by decide) (by decide) rfl (by decide)

end Minigun
